import Mathlib

/-
Verification of kudu's faststring (src/util/faststring.h): a growable
contiguous byte buffer with inline small-buffer storage, geometric growth
on append, and a lexicographic-successor mutation.

Bytes are modelled as Nat; the only arithmetic performed on a byte value
by the source (the increment in AdvanceToSuccessor, on a uint8_t) is
modelled with an explicit % 256.  Sizes (size_t) are modelled as Nat.
Uninitialized memory (freshly allocated cells and cells beyond len_) is
modelled by the placeholder byte value 0; no claim depends on its value.
-/

namespace kudu

/-- Initial inline capacity of a faststring (enum kInitialCapacity = 32). -/
def kInitialCapacity : Nat := 32

/-- State of a faststring.  data_ in the C++ source points either to the
inline array initial_data_ (heapData = none) or to a heap allocation
(heapData = some a).  len_ is the count of valid bytes, capacity_ the
allocated size of the active array. -/
structure faststring where
  heapData : Option (List Nat)
  initialData : List Nat
  len_ : Nat
  capacity_ : Nat
deriving Repr, DecidableEq

namespace faststring

/-- Active backing array (the target of the data_ pointer). -/
def arr (s : faststring) : List Nat :=
  s.heapData.getD s.initialData

/-- Valid bytes of the buffer: data()[0 .. len_). -/
def contents (s : faststring) : List Nat :=
  s.arr.take s.len_

/-- Replace the active backing array (a write through data_). -/
def setArr (s : faststring) (a : List Nat) : faststring :=
  match s.heapData with
  | none => { s with initialData := a }
  | some _ => { s with heapData := some a }

/-- Write one byte at index i of the active array (data_[i] = v). -/
def setData (s : faststring) (i : Nat) (v : Nat) : faststring :=
  s.setArr (s.arr.set i v)

/-- Default constructor: inline storage, length 0, capacity kInitialCapacity. -/
def mkDefault : faststring :=
  ⟨none, List.replicate kInitialCapacity 0, 0, kInitialCapacity⟩

/-- Constructor with a requested capacity: stays inline unless the request
exceeds kInitialCapacity, in which case a heap array of exactly that size
is allocated. -/
def mkWithCapacity (capacity : Nat) : faststring :=
  if capacity > kInitialCapacity then
    ⟨some (List.replicate capacity 0), List.replicate kInitialCapacity 0, 0, capacity⟩
  else
    mkDefault

/-- Modelled from the spec: the body of faststring::GrowArray lives in
faststring.cc, which is not part of the sources; per the spec's reserve
description it allocates a new array of exactly newcapacity bytes, copies
the first len_ valid bytes into it, abandons the old storage and adopts
the new array with capacity_ = newcapacity. -/
def GrowArray (s : faststring) (newcapacity : Nat) : faststring :=
  { s with
    heapData := some (s.arr.take s.len_ ++ List.replicate (newcapacity - s.len_) 0),
    capacity_ := newcapacity }

/-- Reserve space for newcapacity total bytes: a no-op when the current
capacity already suffices, otherwise grows the array to exactly
newcapacity. -/
def reserve (s : faststring) (newcapacity : Nat) : faststring :=
  if newcapacity ≤ s.capacity_ then s else s.GrowArray newcapacity

/-- Resize the string to the given length, expanding capacity (via reserve)
when the new length exceeds it.  Newly exposed bytes are not cleared. -/
def resize (s : faststring) (newsize : Nat) : faststring :=
  let s1 := if newsize > s.capacity_ then s.reserve newsize else s
  { s1 with len_ := newsize }

/-- Reset the valid length to 0; capacity is unchanged. -/
def clear (s : faststring) : faststring :=
  s.resize 0

/-- Modelled from the spec: the body of faststring::GrowByAtLeast lives in
faststring.cc, which is not part of the sources; per the spec's growth
policy it grows the buffer to max(len_ + count, capacity_ + capacity_/2). -/
def GrowByAtLeast (s : faststring) (count : Nat) : faststring :=
  s.GrowArray (max (s.len_ + count) (s.capacity_ + s.capacity_ / 2))

/-- Expand the buffer, if necessary, to fit count more bytes. -/
def EnsureRoomForAppend (s : faststring) (count : Nat) : faststring :=
  if s.len_ + count ≤ s.capacity_ then s else s.GrowByAtLeast count

/-- Byte-by-byte copy loop of append's small-count path: writes the bytes
of src at successive positions starting at pos. -/
def smallCopy (s : faststring) (pos : Nat) : List Nat → faststring
  | [] => s
  | b :: rest => (s.setData pos b).smallCopy (pos + 1) rest

/-- Bulk copy (memcpy_inlined) of append's large-count path: splices src
into the active array at position pos. -/
def bulkCopy (s : faststring) (pos : Nat) (src : List Nat) : faststring :=
  s.setArr (s.arr.take pos ++ src ++ s.arr.drop (pos + src.length))

/-- Append count bytes, growing as needed; counts of at most 4 take the
byte-by-byte path, larger counts the bulk-copy path. -/
def append (s : faststring) (src : List Nat) : faststring :=
  let s1 := s.EnsureRoomForAppend src.length
  let s2 := if src.length ≤ 4 then s1.smallCopy s1.len_ src else s1.bulkCopy s1.len_ src
  { s2 with len_ := s2.len_ + src.length }

/-- Append a single byte. -/
def push_back (s : faststring) (b : Nat) : faststring :=
  let s1 := s.EnsureRoomForAppend 1
  { s1.setData s1.len_ b with len_ := s1.len_ + 1 }

/-- Reset the contents by copying the bytes of src: the length is zeroed
first so the resize need not preserve the old contents, then the new bytes
are copied in bulk to the front. -/
def assign_copy (s : faststring) (src : List Nat) : faststring :=
  let s1 := faststring.resize { s with len_ := 0 } src.length
  s1.bulkCopy 0 src

/-- Copy of the valid bytes as a string value. -/
def ToString (s : faststring) : List Nat :=
  s.contents

/-- Release the underlying array, returning it together with the reset
buffer.  An inline buffer hands back a fresh exactly-sized copy of its
valid bytes; a heap buffer hands off its whole allocation. -/
def release (s : faststring) : List Nat × faststring :=
  let ret := match s.heapData with
    | none => s.initialData.take s.len_
    | some a => a
  (ret, { s with heapData := none, len_ := 0, capacity_ := kInitialCapacity })

/-- Scan loop of AdvanceToSuccessor: fuel i means the current scan index
is i - 1; fuel 0 corresponds to index having run below 0.  Trailing 0xFF
bytes are skipped; the first non-0xFF byte is incremented (uint8_t
arithmetic) and the buffer resized to end right after it. -/
def advanceLoop (s : faststring) : Nat → Bool × faststring
  | 0 => (false, s)
  | i + 1 =>
    if s.arr.getD i 0 = 255 then
      s.advanceLoop i
    else
      (true, ((s.setData i ((s.arr.getD i 0 + 1) % 256)).resize (i + 1)))

/-- Advance the buffer to the smallest lexicographically larger string of
equal or smaller length; false when no successor exists. -/
def AdvanceToSuccessor (s : faststring) : Bool × faststring :=
  s.advanceLoop s.len_

/-- Well-formedness invariants tying the model together: the inline array
has the fixed inline size, the active array has exactly capacity_ cells,
the valid length fits in the capacity, and the capacity never falls below
the inline size. -/
def wf (s : faststring) : Prop :=
  s.initialData.length = kInitialCapacity ∧
  s.arr.length = s.capacity_ ∧
  s.len_ ≤ s.capacity_ ∧
  kInitialCapacity ≤ s.capacity_

instance (s : faststring) : Decidable s.wf := by
  unfold wf; infer_instance

theorem arr_setArr (s : faststring) (a : List Nat) : (s.setArr a).arr = a := by
  cases h : s.heapData <;> simp [setArr, arr, h]

theorem len_setArr (s : faststring) (a : List Nat) : (s.setArr a).len_ = s.len_ := by
  cases h : s.heapData <;> simp [setArr, h]

theorem capacity_setArr (s : faststring) (a : List Nat) :
    (s.setArr a).capacity_ = s.capacity_ := by
  cases h : s.heapData <;> simp [setArr, h]

theorem initialData_setArr (s : faststring) (a : List Nat) :
    (s.setArr a).initialData = if s.heapData = none then a else s.initialData := by
  cases h : s.heapData <;> simp [setArr, h]

theorem heapData_setArr (s : faststring) (a : List Nat) :
    (s.setArr a).heapData = if s.heapData = none then none else some a := by
  cases h : s.heapData <;> simp [setArr, h]

theorem arr_setData (s : faststring) (i v : Nat) : (s.setData i v).arr = s.arr.set i v := by
  simp [setData, arr_setArr]

theorem len_setData (s : faststring) (i v : Nat) : (s.setData i v).len_ = s.len_ := by
  simp [setData, len_setArr]

theorem capacity_setData (s : faststring) (i v : Nat) :
    (s.setData i v).capacity_ = s.capacity_ := by
  simp [setData, capacity_setArr]

theorem capacity_GrowArray (s : faststring) (n : Nat) :
    (s.GrowArray n).capacity_ = n := rfl

theorem len_GrowArray (s : faststring) (n : Nat) :
    (s.GrowArray n).len_ = s.len_ := rfl

theorem arr_GrowArray (s : faststring) (n : Nat) :
    (s.GrowArray n).arr = s.arr.take s.len_ ++ List.replicate (n - s.len_) 0 := rfl

theorem arr_GrowArray_length (s : faststring) (n : Nat)
    (hlen : s.len_ ≤ s.arr.length) (hn : s.len_ ≤ n) :
    (s.GrowArray n).arr.length = n := by
  simp [arr_GrowArray, List.length_take, Nat.min_eq_left hlen]
  omega

theorem contents_GrowArray (s : faststring) (n : Nat) (hlen : s.len_ ≤ s.arr.length) :
    (s.GrowArray n).contents = s.contents := by
  show (s.GrowArray n).arr.take (s.GrowArray n).len_ = s.arr.take s.len_
  rw [len_GrowArray, arr_GrowArray, List.take_append_eq_append_take]
  simp [List.take_take, List.length_take, Nat.min_eq_left hlen]

theorem wf_setArr (s : faststring) (a : List Nat) (hwf : s.wf)
    (hlen : a.length = s.arr.length) : (s.setArr a).wf := by
  obtain ⟨h1, h2, h3, h4⟩ := hwf
  refine ⟨?_, ?_, ?_, ?_⟩ <;>
    cases h : s.heapData <;>
      simp_all [setArr, arr, h]

theorem wf_setData (s : faststring) (i v : Nat) (hwf : s.wf) : (s.setData i v).wf := by
  exact wf_setArr s _ hwf (by simp)

theorem capacity_reserve (s : faststring) (n : Nat) :
    (s.reserve n).capacity_ = max s.capacity_ n := by
  unfold reserve
  split <;> simp [capacity_GrowArray] <;> omega

theorem len_reserve (s : faststring) (n : Nat) : (s.reserve n).len_ = s.len_ := by
  unfold reserve
  split <;> simp [len_GrowArray]

theorem contents_reserve (s : faststring) (n : Nat) (hlen : s.len_ ≤ s.arr.length) :
    (s.reserve n).contents = s.contents := by
  unfold reserve
  split
  · rfl
  · exact contents_GrowArray s n hlen

theorem initialData_reserve (s : faststring) (n : Nat) :
    (s.reserve n).initialData = s.initialData := by
  unfold reserve
  split <;> rfl

theorem wf_reserve (s : faststring) (n : Nat) (hwf : s.wf) : (s.reserve n).wf := by
  obtain ⟨h1, h2, h3, h4⟩ := hwf
  unfold reserve
  split
  · exact ⟨h1, h2, h3, h4⟩
  · refine ⟨h1, ?_, ?_, ?_⟩
    · exact arr_GrowArray_length s n (h2 ▸ h3) (by omega)
    · simp [len_GrowArray, capacity_GrowArray]; omega
    · simp [capacity_GrowArray]; omega

theorem capacity_resize (s : faststring) (n : Nat) :
    (s.resize n).capacity_ = max s.capacity_ n := by
  unfold resize
  split
  · simp [capacity_reserve]
  · simp; omega

theorem len_resize (s : faststring) (n : Nat) : (s.resize n).len_ = n := by
  unfold resize
  split <;> rfl

theorem arr_resize_of_le (s : faststring) (n : Nat) (h : n ≤ s.capacity_) :
    (s.resize n).arr = s.arr := by
  unfold resize
  split
  · omega
  · rfl

theorem initialData_resize (s : faststring) (n : Nat) :
    (s.resize n).initialData = s.initialData := by
  simp only [resize]
  split <;> simp [initialData_reserve]

theorem wf_resize (s : faststring) (n : Nat) (hwf : s.wf) : (s.resize n).wf := by
  have hres := wf_reserve s n hwf
  obtain ⟨h1, h2, h3, h4⟩ := hwf
  obtain ⟨g1, g2, g3, g4⟩ := hres
  simp only [resize]
  split
  · refine ⟨g1, g2, ?_, g4⟩
    show n ≤ (s.reserve n).capacity_
    rw [capacity_reserve]
    omega
  · refine ⟨h1, h2, ?_, h4⟩
    show n ≤ s.capacity_
    omega

theorem capacity_EnsureRoomForAppend (s : faststring) (count : Nat) :
    (s.EnsureRoomForAppend count).capacity_ =
      if s.len_ + count ≤ s.capacity_ then s.capacity_
      else max (s.len_ + count) (s.capacity_ + s.capacity_ / 2) := by
  unfold EnsureRoomForAppend GrowByAtLeast
  split <;> simp [capacity_GrowArray]

theorem len_EnsureRoomForAppend (s : faststring) (count : Nat) :
    (s.EnsureRoomForAppend count).len_ = s.len_ := by
  unfold EnsureRoomForAppend GrowByAtLeast
  split <;> simp [len_GrowArray]

theorem contents_EnsureRoomForAppend (s : faststring) (count : Nat)
    (hlen : s.len_ ≤ s.arr.length) :
    (s.EnsureRoomForAppend count).contents = s.contents := by
  unfold EnsureRoomForAppend GrowByAtLeast
  split
  · rfl
  · exact contents_GrowArray s _ hlen

theorem room_EnsureRoomForAppend (s : faststring) (count : Nat) :
    s.len_ + count ≤ (s.EnsureRoomForAppend count).capacity_ := by
  rw [capacity_EnsureRoomForAppend]
  split <;> omega

theorem wf_EnsureRoomForAppend (s : faststring) (count : Nat) (hwf : s.wf) :
    (s.EnsureRoomForAppend count).wf := by
  obtain ⟨h1, h2, h3, h4⟩ := hwf
  unfold EnsureRoomForAppend GrowByAtLeast
  split
  · exact ⟨h1, h2, h3, h4⟩
  · refine ⟨h1, ?_, ?_, ?_⟩
    · exact arr_GrowArray_length s _ (h2 ▸ h3) (by omega)
    · simp only [len_GrowArray, capacity_GrowArray]
      omega
    · simp only [capacity_GrowArray]
      omega

theorem take_set_succ (a : List Nat) (pos b : Nat) (h : pos < a.length) :
    (a.set pos b).take (pos + 1) = a.take pos ++ [b] := by
  rw [List.set_eq_take_cons_drop b h, List.take_append_eq_append_take]
  simp [List.take_take, List.length_take, Nat.min_eq_left (Nat.le_of_lt h)]

theorem arr_bulkCopy (s : faststring) (pos : Nat) (src : List Nat) :
    (s.bulkCopy pos src).arr = s.arr.take pos ++ src ++ s.arr.drop (pos + src.length) := by
  simp [bulkCopy, arr_setArr]

theorem len_bulkCopy (s : faststring) (pos : Nat) (src : List Nat) :
    (s.bulkCopy pos src).len_ = s.len_ := by
  simp [bulkCopy, len_setArr]

theorem capacity_bulkCopy (s : faststring) (pos : Nat) (src : List Nat) :
    (s.bulkCopy pos src).capacity_ = s.capacity_ := by
  simp [bulkCopy, capacity_setArr]

theorem arr_smallCopy (s : faststring) (pos : Nat) (src : List Nat)
    (h : pos + src.length ≤ s.arr.length) :
    (s.smallCopy pos src).arr = s.arr.take pos ++ src ++ s.arr.drop (pos + src.length) := by
  induction src generalizing s pos with
  | nil =>
    simp [smallCopy, List.take_append_drop]
  | cons b rest ih =>
    have hpos : pos < s.arr.length := by simp at h; omega
    rw [smallCopy, ih ((s.setData pos b)) (pos + 1)
      (by rw [arr_setData]; simp at h ⊢; omega)]
    rw [arr_setData, take_set_succ s.arr pos b hpos,
      List.drop_set_of_lt b s.arr (by omega)]
    simp only [List.append_assoc, List.singleton_append, List.length_cons]
    have hidx : pos + 1 + rest.length = pos + (rest.length + 1) := by omega
    rw [hidx]

theorem len_smallCopy (s : faststring) (pos : Nat) (src : List Nat) :
    (s.smallCopy pos src).len_ = s.len_ := by
  induction src generalizing s pos with
  | nil => rfl
  | cons b rest ih => rw [smallCopy, ih, len_setData]

theorem capacity_smallCopy (s : faststring) (pos : Nat) (src : List Nat) :
    (s.smallCopy pos src).capacity_ = s.capacity_ := by
  induction src generalizing s pos with
  | nil => rfl
  | cons b rest ih => rw [smallCopy, ih, capacity_setData]

theorem length_splice (a src : List Nat) (pos : Nat) (h : pos + src.length ≤ a.length) :
    (a.take pos ++ src ++ a.drop (pos + src.length)).length = a.length := by
  simp [List.length_take, List.length_drop]
  omega

theorem wf_smallCopy (s : faststring) (pos : Nat) (src : List Nat) (hwf : s.wf) :
    (s.smallCopy pos src).wf := by
  induction src generalizing s pos with
  | nil => exact hwf
  | cons b rest ih => exact ih (s.setData pos b) (pos + 1) (wf_setData s pos b hwf)

theorem wf_bulkCopy (s : faststring) (pos : Nat) (src : List Nat) (hwf : s.wf)
    (h : pos + src.length ≤ s.arr.length) : (s.bulkCopy pos src).wf :=
  wf_setArr s _ hwf (length_splice s.arr src pos h)

theorem arr_append_paths (s1 : faststring) (src : List Nat)
    (h : s1.len_ + src.length ≤ s1.arr.length) :
    (if src.length ≤ 4 then s1.smallCopy s1.len_ src else s1.bulkCopy s1.len_ src).arr =
      s1.arr.take s1.len_ ++ src ++ s1.arr.drop (s1.len_ + src.length) := by
  split
  · exact arr_smallCopy s1 s1.len_ src h
  · exact arr_bulkCopy s1 s1.len_ src

theorem len_append_paths (s1 : faststring) (src : List Nat) :
    (if src.length ≤ 4 then s1.smallCopy s1.len_ src else s1.bulkCopy s1.len_ src).len_ =
      s1.len_ := by
  split
  · exact len_smallCopy s1 s1.len_ src
  · exact len_bulkCopy s1 s1.len_ src

theorem capacity_append_paths (s1 : faststring) (src : List Nat) :
    (if src.length ≤ 4 then s1.smallCopy s1.len_ src else s1.bulkCopy s1.len_ src).capacity_ =
      s1.capacity_ := by
  split
  · exact capacity_smallCopy s1 s1.len_ src
  · exact capacity_bulkCopy s1 s1.len_ src

theorem wf_append_paths (s1 : faststring) (src : List Nat) (hwf : s1.wf)
    (h : s1.len_ + src.length ≤ s1.arr.length) :
    (if src.length ≤ 4 then s1.smallCopy s1.len_ src else s1.bulkCopy s1.len_ src).wf := by
  split
  · exact wf_smallCopy s1 s1.len_ src hwf
  · exact wf_bulkCopy s1 s1.len_ src hwf h

theorem len_append (s : faststring) (src : List Nat) :
    (s.append src).len_ = s.len_ + src.length := by
  show ((if src.length ≤ 4 then _ else _) : faststring).len_ + src.length = _
  rw [len_append_paths, len_EnsureRoomForAppend]

theorem contents_append (s : faststring) (src : List Nat) (hwf : s.wf) :
    (s.append src).contents = s.contents ++ src := by
  have hwf1 := wf_EnsureRoomForAppend s src.length hwf
  have hroom := room_EnsureRoomForAppend s src.length
  have hc := contents_EnsureRoomForAppend s src.length (hwf.2.2.1.trans hwf.2.1.ge)
  obtain ⟨w1, w2, w3, w4⟩ := hwf1
  have hlen1 : (s.EnsureRoomForAppend src.length).len_ = s.len_ :=
    len_EnsureRoomForAppend s src.length
  have harrlen : (s.EnsureRoomForAppend src.length).len_ + src.length ≤
      (s.EnsureRoomForAppend src.length).arr.length := by
    rw [w2, hlen1]; exact hroom
  have harr2 : (s.append src).arr =
      (s.EnsureRoomForAppend src.length).arr.take (s.EnsureRoomForAppend src.length).len_ ++
        src ++
        (s.EnsureRoomForAppend src.length).arr.drop
          ((s.EnsureRoomForAppend src.length).len_ + src.length) := by
    show ((if src.length ≤ 4 then _ else _) : faststring).arr = _
    exact arr_append_paths _ src harrlen
  show (s.append src).arr.take (s.append src).len_ = _
  rw [len_append, harr2, List.take_left']
  · show (s.EnsureRoomForAppend src.length).contents ++ src = _
    rw [hc]
  · simp [List.length_take]
    omega

theorem capacity_append (s : faststring) (src : List Nat) :
    (s.append src).capacity_ = (s.EnsureRoomForAppend src.length).capacity_ := by
  show ((if src.length ≤ 4 then _ else _) : faststring).capacity_ = _
  rw [capacity_append_paths]

theorem wf_append (s : faststring) (src : List Nat) (hwf : s.wf) : (s.append src).wf := by
  have hwf1 := wf_EnsureRoomForAppend s src.length hwf
  have hroom := room_EnsureRoomForAppend s src.length
  have harrlen : (s.EnsureRoomForAppend src.length).len_ + src.length ≤
      (s.EnsureRoomForAppend src.length).arr.length := by
    rw [hwf1.2.1, len_EnsureRoomForAppend]; exact hroom
  have hwf2 := wf_append_paths (s.EnsureRoomForAppend src.length) src hwf1 harrlen
  obtain ⟨v1, v2, v3, v4⟩ := hwf2
  refine ⟨v1, v2, ?_, v4⟩
  show (s.append src).len_ ≤ (s.append src).capacity_
  rw [len_append, capacity_append]
  exact hroom

theorem len_push_back (s : faststring) (b : Nat) : (s.push_back b).len_ = s.len_ + 1 := by
  show (s.EnsureRoomForAppend 1).len_ + 1 = s.len_ + 1
  rw [len_EnsureRoomForAppend]

theorem capacity_push_back (s : faststring) (b : Nat) :
    (s.push_back b).capacity_ = (s.EnsureRoomForAppend 1).capacity_ := by
  show ((s.EnsureRoomForAppend 1).setData (s.EnsureRoomForAppend 1).len_ b).capacity_ = _
  rw [capacity_setData]

theorem contents_push_back (s : faststring) (b : Nat) (hwf : s.wf) :
    (s.push_back b).contents = s.contents ++ [b] := by
  have hwf1 := wf_EnsureRoomForAppend s 1 hwf
  have hroom := room_EnsureRoomForAppend s 1
  have hc := contents_EnsureRoomForAppend s 1 (hwf.2.2.1.trans hwf.2.1.ge)
  have hlen1 : (s.EnsureRoomForAppend 1).len_ = s.len_ := len_EnsureRoomForAppend s 1
  have hlt : (s.EnsureRoomForAppend 1).len_ < (s.EnsureRoomForAppend 1).arr.length := by
    rw [hwf1.2.1, hlen1]; omega
  show ((s.EnsureRoomForAppend 1).setData (s.EnsureRoomForAppend 1).len_ b).arr.take
      ((s.EnsureRoomForAppend 1).len_ + 1) = _
  rw [arr_setData, take_set_succ _ _ _ hlt]
  show (s.EnsureRoomForAppend 1).contents ++ [b] = _
  rw [hc]

theorem wf_push_back (s : faststring) (b : Nat) (hwf : s.wf) : (s.push_back b).wf := by
  have hwf1 := wf_EnsureRoomForAppend s 1 hwf
  have hroom := room_EnsureRoomForAppend s 1
  have hwf2 := wf_setData (s.EnsureRoomForAppend 1) (s.EnsureRoomForAppend 1).len_ b hwf1
  obtain ⟨v1, v2, v3, v4⟩ := hwf2
  refine ⟨v1, v2, ?_, v4⟩
  show (s.push_back b).len_ ≤ (s.push_back b).capacity_
  rw [len_push_back, capacity_push_back]
  exact hroom

theorem wf_zeroLen (s : faststring) (hwf : s.wf) : (faststring.mk s.heapData s.initialData 0 s.capacity_).wf := by
  obtain ⟨h1, h2, h3, h4⟩ := hwf
  exact ⟨h1, h2, Nat.zero_le _, h4⟩

theorem len_assign_copy (s : faststring) (src : List Nat) :
    (s.assign_copy src).len_ = src.length := by
  show ((faststring.resize ⟨s.heapData, s.initialData, 0, s.capacity_⟩ src.length).bulkCopy 0 src).len_ = _
  rw [len_bulkCopy, len_resize]

theorem capacity_assign_copy (s : faststring) (src : List Nat) :
    (s.assign_copy src).capacity_ = max s.capacity_ src.length := by
  show ((faststring.resize ⟨s.heapData, s.initialData, 0, s.capacity_⟩ src.length).bulkCopy 0 src).capacity_ = _
  rw [capacity_bulkCopy, capacity_resize]

theorem contents_assign_copy (s : faststring) (src : List Nat) (hwf : s.wf) :
    (s.assign_copy src).contents = src := by
  have hwf0 := wf_zeroLen s hwf
  have hwft := wf_resize ⟨s.heapData, s.initialData, 0, s.capacity_⟩ src.length hwf0
  have hlen : (faststring.resize ⟨s.heapData, s.initialData, 0, s.capacity_⟩ src.length).len_ =
      src.length := len_resize _ _
  have hcap : src.length ≤
      (faststring.resize ⟨s.heapData, s.initialData, 0, s.capacity_⟩ src.length).arr.length := by
    rw [hwft.2.1, capacity_resize]
    omega
  show ((faststring.resize ⟨s.heapData, s.initialData, 0, s.capacity_⟩ src.length).bulkCopy 0 src).arr.take
      ((faststring.resize ⟨s.heapData, s.initialData, 0, s.capacity_⟩ src.length).bulkCopy 0 src).len_ = _
  rw [arr_bulkCopy, len_bulkCopy, hlen]
  simp only [List.take_zero, List.nil_append, Nat.zero_add]
  rw [List.take_append_eq_append_take]
  simp

theorem wf_assign_copy (s : faststring) (src : List Nat) (hwf : s.wf) :
    (s.assign_copy src).wf := by
  have hwf0 := wf_zeroLen s hwf
  have hwft := wf_resize ⟨s.heapData, s.initialData, 0, s.capacity_⟩ src.length hwf0
  refine wf_bulkCopy _ 0 src hwft ?_
  rw [hwft.2.1, capacity_resize, Nat.zero_add]
  omega

theorem ToString_assign_copy (s : faststring) (src : List Nat) (hwf : s.wf) :
    (s.assign_copy src).ToString = src := by
  rw [ToString, contents_assign_copy s src hwf]

theorem len_release (s : faststring) : (s.release).2.len_ = 0 := rfl

theorem capacity_release (s : faststring) : (s.release).2.capacity_ = kInitialCapacity := rfl

theorem heapData_release (s : faststring) : (s.release).2.heapData = none := rfl

theorem initialData_release (s : faststring) : (s.release).2.initialData = s.initialData := rfl

theorem ret_release (s : faststring) (hwf : s.wf) :
    (s.release).1.take s.len_ = s.contents := by
  obtain ⟨h1, h2, h3, h4⟩ := hwf
  simp only [release, contents, arr]
  cases h : s.heapData with
  | none => simp [List.take_take]
  | some a => simp

theorem wf_release (s : faststring) (hwf : s.wf) : (s.release).2.wf := by
  obtain ⟨h1, h2, h3, h4⟩ := hwf
  refine ⟨h1, ?_, Nat.zero_le _, Nat.le_refl _⟩
  show s.initialData.length = kInitialCapacity
  exact h1

end faststring

/-- Specification-side successor on a reversed byte list, written from the
spec's words for advanceToSuccessor: skip the leading maximum (0xFF) bytes
of the reversed sequence and increment the first non-maximum byte,
dropping the skipped bytes. -/
def specSuccRev : List Nat → Option (List Nat)
  | [] => none
  | b :: rest => if b = 255 then specSuccRev rest else some ((b + 1) % 256 :: rest)

/-- Specification-side lexicographic successor of a byte sequence: all
trailing 0xFF bytes are dropped and the last remaining byte is
incremented; none when the sequence is empty or entirely 0xFF. -/
def specSuccessor (l : List Nat) : Option (List Nat) :=
  (specSuccRev l.reverse).map List.reverse

theorem specSuccRev_eq_none_iff (m : List Nat) :
    specSuccRev m = none ↔ ∀ b ∈ m, b = 255 := by
  induction m with
  | nil => simp [specSuccRev]
  | cons b rest ih =>
    by_cases hb : b = 255 <;> simp [specSuccRev, hb, ih]

theorem specSuccRev_some_decomp (m r : List Nat) (h : specSuccRev m = some r) :
    ∃ ffs b rest, m = ffs ++ b :: rest ∧ (∀ x ∈ ffs, x = 255) ∧ b ≠ 255 ∧
      r = (b + 1) % 256 :: rest := by
  induction m generalizing r with
  | nil => simp [specSuccRev] at h
  | cons c m' ih =>
    by_cases hc : c = 255
    · simp only [specSuccRev, hc, if_pos rfl] at h
      obtain ⟨ffs, b, rest, hm, hffs, hb, hr⟩ := ih r h
      refine ⟨255 :: ffs, b, rest, by simp [hc, hm], ?_, hb, hr⟩
      intro x hx
      rcases List.mem_cons.mp hx with hx | hx
      · exact hx
      · exact hffs x hx
    · simp only [specSuccRev, if_neg hc] at h
      exact ⟨[], c, m', rfl, by simp, hc, (Option.some.inj h).symm⟩

namespace faststring

theorem take_succ_reverse (a : List Nat) (i : Nat) (h : i < a.length) :
    (a.take (i + 1)).reverse = a.getD i 0 :: (a.take i).reverse := by
  rw [List.take_succ]
  simp [List.getD, List.getElem?_eq_getElem h]

theorem advanceLoop_spec (s : faststring) (hwf : s.wf) :
    ∀ i, i ≤ s.len_ →
      (specSuccRev ((s.arr.take i).reverse) = none → s.advanceLoop i = (false, s)) ∧
      (∀ r, specSuccRev ((s.arr.take i).reverse) = some r →
        (s.advanceLoop i).1 = true ∧
        (s.advanceLoop i).2.contents = r.reverse ∧
        (s.advanceLoop i).2.len_ = r.length ∧
        (s.advanceLoop i).2.capacity_ = s.capacity_ ∧
        (s.advanceLoop i).2.wf ∧
        r.length ≤ i) := by
  obtain ⟨h1, h2, h3, h4⟩ := hwf
  intro i
  induction i with
  | zero =>
    intro _
    constructor
    · intro _
      rfl
    · intro r hr
      simp [specSuccRev] at hr
  | succ i ih =>
    intro hi
    have hilt : i < s.arr.length := by omega
    have hrev := take_succ_reverse s.arr i hilt
    by_cases hb : s.arr.getD i 0 = 255
    · have hloop : s.advanceLoop (i + 1) = s.advanceLoop i := by
        show (if s.arr.getD i 0 = 255 then s.advanceLoop i else _) = s.advanceLoop i
        rw [if_pos hb]
      have hspec : specSuccRev ((s.arr.take (i + 1)).reverse) =
          specSuccRev ((s.arr.take i).reverse) := by
        rw [hrev]
        show (if s.arr.getD i 0 = 255 then specSuccRev ((s.arr.take i).reverse) else _) = _
        rw [if_pos hb]
      obtain ⟨ihn, ihs⟩ := ih (by omega)
      rw [hloop, hspec]
      refine ⟨ihn, ?_⟩
      intro r hr
      obtain ⟨a1, a2, a3, a4, a5, a6⟩ := ihs r hr
      exact ⟨a1, a2, a3, a4, a5, by omega⟩
    · have hloop : s.advanceLoop (i + 1) =
          (true, ((s.setData i ((s.arr.getD i 0 + 1) % 256)).resize (i + 1))) := by
        show (if s.arr.getD i 0 = 255 then _ else
          (true, ((s.setData i ((s.arr.getD i 0 + 1) % 256)).resize (i + 1)))) = _
        rw [if_neg hb]
      have hspec : specSuccRev ((s.arr.take (i + 1)).reverse) =
          some ((s.arr.getD i 0 + 1) % 256 :: (s.arr.take i).reverse) := by
        rw [hrev]
        show (if s.arr.getD i 0 = 255 then _ else
          some ((s.arr.getD i 0 + 1) % 256 :: (s.arr.take i).reverse)) = _
        rw [if_neg hb]
      constructor
      · intro hnone
        rw [hspec] at hnone
        cases hnone
      · intro r hr
        rw [hspec] at hr
        have hr' : r = (s.arr.getD i 0 + 1) % 256 :: (s.arr.take i).reverse :=
          (Option.some_injective _ hr).symm
        subst hr'
        have hcapset : (s.setData i ((s.arr.getD i 0 + 1) % 256)).capacity_ = s.capacity_ :=
          capacity_setData s i _
        have hwfset : (s.setData i ((s.arr.getD i 0 + 1) % 256)).wf :=
          wf_setData s i _ ⟨h1, h2, h3, h4⟩
        rw [hloop]
        refine ⟨rfl, ?_, ?_, ?_, ?_, ?_⟩
        · show (((s.setData i ((s.arr.getD i 0 + 1) % 256)).resize (i + 1))).contents = _
          rw [contents, len_resize, arr_resize_of_le _ _ (by rw [hcapset]; omega)]
          rw [arr_setData, take_set_succ s.arr i _ hilt]
          simp
        · rw [len_resize]
          simp only [List.length_cons, List.length_reverse, List.length_take]
          omega
        · rw [capacity_resize, hcapset]
          omega
        · exact wf_resize _ _ hwfset
        · simp only [List.length_cons, List.length_reverse, List.length_take]
          omega

theorem advanceLoop_of_false (s : faststring) :
    ∀ i, (s.advanceLoop i).1 = false → (s.advanceLoop i).2 = s := by
  intro i
  induction i with
  | zero =>
    intro _
    rfl
  | succ i ih =>
    intro h
    by_cases hb : s.arr.getD i 0 = 255
    · have hloop : s.advanceLoop (i + 1) = s.advanceLoop i := by
        show (if s.arr.getD i 0 = 255 then s.advanceLoop i else _) = s.advanceLoop i
        rw [if_pos hb]
      rw [hloop] at h ⊢
      exact ih h
    · have hloop : s.advanceLoop (i + 1) =
          (true, ((s.setData i ((s.arr.getD i 0 + 1) % 256)).resize (i + 1))) := by
        show (if s.arr.getD i 0 = 255 then _ else
          (true, ((s.setData i ((s.arr.getD i 0 + 1) % 256)).resize (i + 1)))) = _
        rw [if_neg hb]
      rw [hloop] at h
      cases h

theorem AdvanceToSuccessor_spec (s : faststring) (hwf : s.wf) :
    (specSuccRev (s.contents.reverse) = none → s.AdvanceToSuccessor = (false, s)) ∧
    (∀ r, specSuccRev (s.contents.reverse) = some r →
      (s.AdvanceToSuccessor).1 = true ∧
      (s.AdvanceToSuccessor).2.contents = r.reverse ∧
      (s.AdvanceToSuccessor).2.len_ = r.length ∧
      (s.AdvanceToSuccessor).2.capacity_ = s.capacity_ ∧
      (s.AdvanceToSuccessor).2.wf ∧
      r.length ≤ s.len_) :=
  advanceLoop_spec s hwf s.len_ (Nat.le_refl _)

end faststring

/-- Strict lexicographic order on byte sequences, with a shorter sequence
below any extension of it. -/
def lexLt (l m : List Nat) : Prop :=
  List.Lex (· < ·) l m

theorem lexLt_append_lt (P : List Nat) (b c : Nat) (X Y : List Nat) (h : b < c) :
    lexLt (P ++ b :: X) (P ++ c :: Y) := by
  induction P with
  | nil => exact List.Lex.rel h
  | cons p P' ih => exact List.Lex.cons ih

theorem lex_all_max (ffs M : List Nat) (h : lexLt ffs M) :
    (∀ x ∈ ffs, x = 255) → (∀ x ∈ M, x < 256) → ffs.length < M.length := by
  induction h with
  | nil =>
    intro _ _
    simp
  | @cons a l₁ l₂ h ih =>
    intro hf hm
    have := ih (fun x hx => hf x (List.mem_cons_of_mem a hx))
      (fun x hx => hm x (List.mem_cons_of_mem a hx))
    simpa using Nat.succ_lt_succ this
  | @rel a l₁ b l₂ hab =>
    intro hf hm
    have ha : a = 255 := hf a (List.mem_cons_self a l₁)
    have hb : b < 256 := hm b (List.mem_cons_self b l₂)
    omega

theorem lex_min_succ : ∀ (P : List Nat) (b : Nat) (ffs M : List Nat),
    b < 255 → (∀ x ∈ ffs, x = 255) → (∀ x ∈ M, x < 256) →
    M.length ≤ (P ++ b :: ffs).length →
    lexLt (P ++ b :: ffs) M →
    P ++ [b + 1] = M ∨ lexLt (P ++ [b + 1]) M := by
  intro P
  induction P with
  | nil =>
    intro b ffs M hb hffs hM hlen hlex
    cases hlex with
    | @rel _ _ c M2 h =>
      rcases Nat.lt_or_ge (b + 1) c with hlt | hge
      · exact Or.inr (List.Lex.rel hlt)
      · have hc : c = b + 1 := by omega
        subst hc
        cases M2 with
        | nil => exact Or.inl rfl
        | cons d M3 => exact Or.inr (List.Lex.cons List.Lex.nil)
    | @cons _ _ M2 h =>
      have hlt := lex_all_max ffs M2 h hffs
        (fun x hx => hM x (List.mem_cons_of_mem b hx))
      simp at hlen
      omega
  | cons p P' ih =>
    intro b ffs M hb hffs hM hlen hlex
    cases hlex with
    | @rel _ _ c M2 h =>
      exact Or.inr (List.Lex.rel h)
    | @cons _ _ M2 h =>
      have hlen2 : M2.length ≤ (P' ++ b :: ffs).length := by
        simp at hlen ⊢
        omega
      rcases ih b ffs M2 hb hffs
        (fun x hx => hM x (List.mem_cons_of_mem p hx)) hlen2 h with heq | hlex2
      · exact Or.inl (by rw [List.cons_append, heq])
      · exact Or.inr (List.Lex.cons hlex2)

namespace faststring

theorem capacity_clear (s : faststring) : (s.clear).capacity_ = s.capacity_ := by
  show (s.resize 0).capacity_ = s.capacity_
  rw [capacity_resize]
  omega

theorem wf_clear (s : faststring) (hwf : s.wf) : (s.clear).wf :=
  wf_resize s 0 hwf

theorem capacity_advanceLoop_ge (s : faststring) :
    ∀ i, s.capacity_ ≤ (s.advanceLoop i).2.capacity_ := by
  intro i
  induction i with
  | zero => exact Nat.le_refl _
  | succ i ih =>
    by_cases hb : s.arr.getD i 0 = 255
    · have hloop : s.advanceLoop (i + 1) = s.advanceLoop i := by
        show (if s.arr.getD i 0 = 255 then s.advanceLoop i else _) = s.advanceLoop i
        rw [if_pos hb]
      rw [hloop]
      exact ih
    · have hloop : s.advanceLoop (i + 1) =
          (true, ((s.setData i ((s.arr.getD i 0 + 1) % 256)).resize (i + 1))) := by
        show (if s.arr.getD i 0 = 255 then _ else
          (true, ((s.setData i ((s.arr.getD i 0 + 1) % 256)).resize (i + 1)))) = _
        rw [if_neg hb]
      rw [hloop]
      show s.capacity_ ≤ ((s.setData i ((s.arr.getD i 0 + 1) % 256)).resize (i + 1)).capacity_
      rw [capacity_resize, capacity_setData]
      omega

theorem wf_advanceLoop (s : faststring) (hwf : s.wf) :
    ∀ i, (s.advanceLoop i).2.wf := by
  intro i
  induction i with
  | zero => exact hwf
  | succ i ih =>
    by_cases hb : s.arr.getD i 0 = 255
    · have hloop : s.advanceLoop (i + 1) = s.advanceLoop i := by
        show (if s.arr.getD i 0 = 255 then s.advanceLoop i else _) = s.advanceLoop i
        rw [if_pos hb]
      rw [hloop]
      exact ih
    · have hloop : s.advanceLoop (i + 1) =
          (true, ((s.setData i ((s.arr.getD i 0 + 1) % 256)).resize (i + 1))) := by
        show (if s.arr.getD i 0 = 255 then _ else
          (true, ((s.setData i ((s.arr.getD i 0 + 1) % 256)).resize (i + 1)))) = _
        rw [if_neg hb]
      rw [hloop]
      exact wf_resize _ _ (wf_setData s i _ hwf)

theorem wf_mkDefault : mkDefault.wf := by
  refine ⟨?_, ?_, ?_, ?_⟩ <;> simp [mkDefault, arr, kInitialCapacity]

theorem wf_mkWithCapacity (c : Nat) : (mkWithCapacity c).wf := by
  by_cases hc : c > kInitialCapacity
  · rw [mkWithCapacity, if_pos hc]
    refine ⟨?_, ?_, ?_, ?_⟩ <;> simp [arr]
    omega
  · rw [mkWithCapacity, if_neg hc]
    exact wf_mkDefault

end faststring

/-- The mutating operations of the buffer interface, used to quantify over
arbitrary operation sequences. -/
inductive Op where
  | clearOp : Op
  | resizeOp (n : Nat) : Op
  | reserveOp (n : Nat) : Op
  | appendOp (src : List Nat) : Op
  | pushBackOp (b : Nat) : Op
  | assignCopyOp (src : List Nat) : Op
  | releaseOp : Op
  | advanceOp : Op
deriving DecidableEq

/-- Apply one interface operation to a buffer (for release and
AdvanceToSuccessor, keep the buffer and discard the other result). -/
def applyOp (o : Op) (s : faststring) : faststring :=
  match o with
  | Op.clearOp => s.clear
  | Op.resizeOp n => s.resize n
  | Op.reserveOp n => s.reserve n
  | Op.appendOp src => s.append src
  | Op.pushBackOp b => s.push_back b
  | Op.assignCopyOp src => s.assign_copy src
  | Op.releaseOp => (s.release).2
  | Op.advanceOp => (s.AdvanceToSuccessor).2

/-- Buffer states reachable from a constructor by interface operations. -/
inductive Reachable : faststring → Prop where
  | base : Reachable faststring.mkDefault
  | withCapacity (c : Nat) : Reachable (faststring.mkWithCapacity c)
  | step (o : Op) (s : faststring) : Reachable s → Reachable (applyOp o s)

theorem wf_applyOp (o : Op) (s : faststring) (hwf : s.wf) : (applyOp o s).wf := by
  cases o with
  | clearOp => exact faststring.wf_clear s hwf
  | resizeOp n => exact faststring.wf_resize s n hwf
  | reserveOp n => exact faststring.wf_reserve s n hwf
  | appendOp src => exact faststring.wf_append s src hwf
  | pushBackOp b => exact faststring.wf_push_back s b hwf
  | assignCopyOp src => exact faststring.wf_assign_copy s src hwf
  | releaseOp => exact faststring.wf_release s hwf
  | advanceOp => exact faststring.wf_advanceLoop s hwf s.len_

theorem wf_of_Reachable (s : faststring) (h : Reachable s) : s.wf := by
  induction h with
  | base => exact faststring.wf_mkDefault
  | withCapacity c => exact faststring.wf_mkWithCapacity c
  | step o t _ ih => exact wf_applyOp o t ih

theorem capacity_applyOp_mono (o : Op) (s : faststring) (hne : o ≠ Op.releaseOp) :
    s.capacity_ ≤ (applyOp o s).capacity_ := by
  cases o with
  | clearOp =>
    show s.capacity_ ≤ (s.clear).capacity_
    rw [faststring.capacity_clear]
  | resizeOp n =>
    show s.capacity_ ≤ (s.resize n).capacity_
    rw [faststring.capacity_resize]
    omega
  | reserveOp n =>
    show s.capacity_ ≤ (s.reserve n).capacity_
    rw [faststring.capacity_reserve]
    omega
  | appendOp src =>
    show s.capacity_ ≤ (s.append src).capacity_
    rw [faststring.capacity_append, faststring.capacity_EnsureRoomForAppend]
    split <;> omega
  | pushBackOp b =>
    show s.capacity_ ≤ (s.push_back b).capacity_
    rw [faststring.capacity_push_back, faststring.capacity_EnsureRoomForAppend]
    split <;> omega
  | assignCopyOp src =>
    show s.capacity_ ≤ (s.assign_copy src).capacity_
    rw [faststring.capacity_assign_copy]
    omega
  | releaseOp => exact absurd rfl hne
  | advanceOp => exact faststring.capacity_advanceLoop_ge s s.len_

namespace faststring

/-- C1: AdvanceToSuccessor returns true iff the contents are non-empty and
contain at least one byte different from 0xFF; when it returns true the
buffer becomes the lexicographically smallest byte sequence of length at
most the original length that is strictly greater than the original
contents, and equals the operational description captured by
specSuccessor (trailing 0xFF bytes dropped, last non-0xFF byte
incremented, length truncated right after it). -/
theorem claim_C1 (s : faststring) (hwf : s.wf)
    (hbytes : ∀ b ∈ s.contents, b < 256) :
    ((s.AdvanceToSuccessor).1 = true ↔
      s.contents ≠ [] ∧ ∃ b ∈ s.contents, b ≠ 255) ∧
    ((s.AdvanceToSuccessor).1 = true →
      specSuccessor s.contents = some ((s.AdvanceToSuccessor).2.contents) ∧
      lexLt s.contents ((s.AdvanceToSuccessor).2.contents) ∧
      ((s.AdvanceToSuccessor).2.contents).length ≤ s.contents.length ∧
      ∀ M : List Nat, (∀ b ∈ M, b < 256) → M.length ≤ s.contents.length →
        lexLt s.contents M →
        (s.AdvanceToSuccessor).2.contents = M ∨
          lexLt ((s.AdvanceToSuccessor).2.contents) M) := by
  obtain ⟨hnone, hsome⟩ := AdvanceToSuccessor_spec s hwf
  cases hsr : specSuccRev (s.contents.reverse) with
  | none =>
    have hfalse := hnone hsr
    have hall : ∀ b ∈ s.contents.reverse, b = 255 := (specSuccRev_eq_none_iff _).mp hsr
    constructor
    · constructor
      · intro htr
        rw [hfalse] at htr
        cases htr
      · rintro ⟨hne, b, hbmem, hbne⟩
        exact absurd (hall b (List.mem_reverse.mpr hbmem)) hbne
    · intro htr
      rw [hfalse] at htr
      cases htr
  | some r =>
    obtain ⟨htrue, hcont, hlen, hcap, hwf2, hrlen⟩ := hsome r hsr
    obtain ⟨ffs, b, rest, hm, hffs, hbne, hr⟩ := specSuccRev_some_decomp _ r hsr
    have hcontents : s.contents = rest.reverse ++ b :: ffs.reverse := by
      have h0 : s.contents = s.contents.reverse.reverse := (List.reverse_reverse _).symm
      rw [h0, hm]
      simp [List.reverse_append, List.reverse_cons, List.append_assoc,
        List.singleton_append]
    have hbmem : b ∈ s.contents := by
      rw [hcontents]
      exact List.mem_append_right _ (List.mem_cons_self b _)
    have hb255 : b < 255 := by
      have := hbytes b hbmem
      omega
    have hmod : (b + 1) % 256 = b + 1 := Nat.mod_eq_of_lt (by omega)
    have hrrev : r.reverse = rest.reverse ++ [b + 1] := by
      rw [hr]
      simp [hmod]
    refine ⟨⟨fun _ => ?_, fun _ => htrue⟩, fun _ => ⟨?_, ?_, ?_, ?_⟩⟩
    · refine ⟨?_, b, hbmem, hbne⟩
      rw [hcontents]
      simp
    · rw [specSuccessor, hsr, hcont]
      rfl
    · rw [hcont, hrrev, hcontents]
      exact lexLt_append_lt rest.reverse b (b + 1) ffs.reverse [] (by omega)
    · rw [hcont, hrrev, hcontents]
      simp
    · intro M hM hMlen hMlex
      rw [hcontents] at hMlen hMlex
      rw [hcont, hrrev]
      exact lex_min_succ rest.reverse b ffs.reverse M hb255
        (fun x hx => hffs x (List.mem_reverse.mp hx)) hM hMlen hMlex

/-- C1 witness: on the buffer holding the bytes of "foo" the call succeeds
and the contents become "fop". -/
theorem claim_C1_witness :
    ((mkDefault.append [102, 111, 111]).AdvanceToSuccessor.1 = true) ∧
    (mkDefault.append [102, 111, 111]).AdvanceToSuccessor.2.contents = [102, 111, 112] := by
  have h := claim_C1 (mkDefault.append [102, 111, 111]) (by decide) (by decide)
  have h1 := h.1.mpr (by decide)
  have h2 := (h.2 h1).1
  have h3 : specSuccessor ((mkDefault.append [102, 111, 111]).contents) =
      some [102, 111, 112] := by decide
  rw [h3] at h2
  exact ⟨h1, (Option.some.inj h2).symm⟩

/-- C2: any sequence of appends adds the sum of the appended counts to the
length and appends the concatenation of the byte sequences to the
contents, whichever copy path each append takes. -/
theorem claim_C2 (s : faststring) (srcs : List (List Nat)) (hwf : s.wf) :
    (srcs.foldl faststring.append s).len_ = s.len_ + (srcs.map List.length).sum ∧
    (srcs.foldl faststring.append s).contents = s.contents ++ srcs.flatten := by
  induction srcs generalizing s with
  | nil => simp
  | cons src rest ih =>
    obtain ⟨ih1, ih2⟩ := ih (s.append src) (wf_append s src hwf)
    refine ⟨?_, ?_⟩
    · rw [List.foldl_cons, ih1, len_append]
      simp
      omega
    · rw [List.foldl_cons, ih2, contents_append s src hwf]
      simp [List.append_assoc]

/-- C2 witness: two appends, one through the small-count path and one
through the bulk path, concatenate on a fresh buffer. -/
theorem claim_C2_witness :
    ([[1, 2, 3], [4, 5, 6, 7, 8, 9]].foldl faststring.append mkDefault).len_ =
      mkDefault.len_ + 9 ∧
    ([[1, 2, 3], [4, 5, 6, 7, 8, 9]].foldl faststring.append mkDefault).contents =
      mkDefault.contents ++ [1, 2, 3, 4, 5, 6, 7, 8, 9] :=
  claim_C2 mkDefault [[1, 2, 3], [4, 5, 6, 7, 8, 9]] (by decide)

/-- C10: a failing AdvanceToSuccessor leaves length, capacity and contents
unchanged, because the resize happens only in the success branch. -/
theorem claim_C10 (s : faststring) (h : (s.AdvanceToSuccessor).1 = false) :
    (s.AdvanceToSuccessor).2.len_ = s.len_ ∧
    (s.AdvanceToSuccessor).2.capacity_ = s.capacity_ ∧
    (s.AdvanceToSuccessor).2.contents = s.contents := by
  have heq : (s.AdvanceToSuccessor).2 = s := advanceLoop_of_false s s.len_ h
  rw [heq]
  exact ⟨rfl, rfl, rfl⟩

/-- C10 witness: on the all-0xFF buffer the call fails and the state is
untouched. -/
theorem claim_C10_witness :
    ((mkDefault.append [255, 255]).AdvanceToSuccessor.2.len_ =
      (mkDefault.append [255, 255]).len_ ∧
    (mkDefault.append [255, 255]).AdvanceToSuccessor.2.capacity_ =
      (mkDefault.append [255, 255]).capacity_ ∧
    (mkDefault.append [255, 255]).AdvanceToSuccessor.2.contents =
      (mkDefault.append [255, 255]).contents) :=
  claim_C10 (mkDefault.append [255, 255]) (by decide)

/-- C3 counterexample: resizing a fresh buffer (capacity 32) to 33 goes
through reserve(33), which grows to exactly 33 — strictly below the
geometric bound max(33, 32 + 32/2) = 48 the claim demands. -/
theorem claim_C3_counterexample :
    (mkDefault.resize 33).capacity_ = 33 ∧
    ¬ (max 33 (mkDefault.capacity_ + mkDefault.capacity_ / 2) ≤
        (mkDefault.resize 33).capacity_) := by
  decide

/-- C3 amended: for newLength strictly greater than the capacity, resize
grows via a bare exact-size reserve — the new capacity equals newLength
exactly — and then sets length to newLength, preserving the bytes below
the old length. -/
theorem claim_C3_amended (s : faststring) (n : Nat) (hwf : s.wf)
    (hn : s.capacity_ < n) :
    (s.resize n).capacity_ = n ∧ (s.resize n).len_ = n ∧
    (s.resize n).arr.take s.len_ = s.contents := by
  refine ⟨?_, len_resize s n, ?_⟩
  · rw [capacity_resize]
    omega
  · have harr : (s.resize n).arr = (s.reserve n).arr := by
      simp only [resize]
      split
      · rfl
      · omega
    have h := contents_reserve s n (hwf.2.2.1.trans hwf.2.1.ge)
    rw [contents, len_reserve] at h
    rw [harr, h]

/-- C3 amended witness: resizing a fresh buffer to 33 gives capacity
exactly 33 and length 33 with the (empty) old prefix preserved. -/
theorem claim_C3_amended_witness :
    (mkDefault.resize 33).capacity_ = 33 ∧ (mkDefault.resize 33).len_ = 33 ∧
    (mkDefault.resize 33).arr.take mkDefault.len_ = mkDefault.contents :=
  claim_C3_amended mkDefault 33 (by decide) (by decide)

end faststring

/-- C4 counterexample: release resets the capacity to kInitialCapacity, so
on a buffer grown to capacity 33 the capacity strictly decreases across
the release operation. -/
theorem claim_C4_counterexample :
    ¬ ((faststring.mkDefault.reserve 33).capacity_ ≤
        (applyOp Op.releaseOp (faststring.mkDefault.reserve 33)).capacity_) := by
  decide

/-- C4 amended: capacity is monotonically non-decreasing across every
interface operation except release, and release resets the capacity to
exactly kInitialCapacity. -/
theorem claim_C4_amended (o : Op) (s : faststring) :
    (o ≠ Op.releaseOp → s.capacity_ ≤ (applyOp o s).capacity_) ∧
    (applyOp Op.releaseOp s).capacity_ = kInitialCapacity :=
  ⟨capacity_applyOp_mono o s, rfl⟩

/-- C4 amended witness: clear on a fresh buffer does not decrease the
capacity, and release resets it to kInitialCapacity. -/
theorem claim_C4_amended_witness :
    faststring.mkDefault.capacity_ ≤ (applyOp Op.clearOp faststring.mkDefault).capacity_ ∧
    (applyOp Op.releaseOp faststring.mkDefault).capacity_ = kInitialCapacity :=
  ⟨(claim_C4_amended Op.clearOp faststring.mkDefault).1 (by decide),
   (claim_C4_amended Op.clearOp faststring.mkDefault).2⟩

namespace faststring

/-- C5: an append whose count overflows the capacity grows the buffer to a
capacity at least capacity + capacity/2 and at least the length after the
append. -/
theorem claim_C5 (s : faststring) (src : List Nat)
    (hover : s.capacity_ < s.len_ + src.length) :
    s.capacity_ + s.capacity_ / 2 ≤ (s.append src).capacity_ ∧
    s.len_ + src.length ≤ (s.append src).capacity_ := by
  rw [capacity_append, capacity_EnsureRoomForAppend]
  split
  · omega
  · omega

/-- C5 witness: appending 33 bytes to a fresh buffer (capacity 32, length
0) grows the capacity to at least 48 and at least 33. -/
theorem claim_C5_witness :
    mkDefault.capacity_ + mkDefault.capacity_ / 2 ≤
      (mkDefault.append (List.replicate 33 5)).capacity_ ∧
    mkDefault.len_ + (List.replicate 33 5).length ≤
      (mkDefault.append (List.replicate 33 5)).capacity_ :=
  claim_C5 mkDefault (List.replicate 33 5) (by decide)

/-- C6: reserve to a capacity strictly above the current one sets the
capacity to exactly that value and preserves the first length bytes;
reserve to any smaller-or-equal capacity is a complete no-op. -/
theorem claim_C6 (s : faststring) (n : Nat) (hwf : s.wf) :
    (s.capacity_ < n →
      (s.reserve n).capacity_ = n ∧ (s.reserve n).arr.take s.len_ = s.contents) ∧
    (n ≤ s.capacity_ → s.reserve n = s) := by
  constructor
  · intro hn
    refine ⟨?_, ?_⟩
    · rw [capacity_reserve]
      omega
    · have h := contents_reserve s n (hwf.2.2.1.trans hwf.2.1.ge)
      rw [contents, len_reserve] at h
      exact h
  · intro hn
    rw [reserve, if_pos hn]

/-- C6 witness: reserve(40) on a fresh buffer gives capacity exactly 40
with contents preserved, and reserve(10) is a no-op. -/
theorem claim_C6_witness :
    ((mkDefault.reserve 40).capacity_ = 40 ∧
      (mkDefault.reserve 40).arr.take mkDefault.len_ = mkDefault.contents) ∧
    mkDefault.reserve 10 = mkDefault :=
  ⟨(claim_C6 mkDefault 40 (by decide)).1 (by decide),
   (claim_C6 mkDefault 10 (by decide)).2 (by decide)⟩

/-- C7: after release the buffer observably equals a freshly
default-constructed instance — length 0, capacity kInitialCapacity,
inline storage, empty contents — and the returned array holds the
previous length valid bytes. -/
theorem claim_C7 (s : faststring) (hwf : s.wf) :
    (s.release).2.len_ = mkDefault.len_ ∧
    (s.release).2.capacity_ = mkDefault.capacity_ ∧
    (s.release).2.heapData = mkDefault.heapData ∧
    (s.release).2.contents = mkDefault.contents ∧
    (s.release).1.take s.len_ = s.contents :=
  ⟨rfl, rfl, rfl, rfl, ret_release s hwf⟩

/-- C7 witness: releasing a buffer holding three bytes resets it to the
default-constructed observable state and hands the bytes back. -/
theorem claim_C7_witness :
    ((mkDefault.append [9, 8, 7]).release).2.len_ = mkDefault.len_ ∧
    ((mkDefault.append [9, 8, 7]).release).2.capacity_ = mkDefault.capacity_ ∧
    ((mkDefault.append [9, 8, 7]).release).2.heapData = mkDefault.heapData ∧
    ((mkDefault.append [9, 8, 7]).release).2.contents = mkDefault.contents ∧
    ((mkDefault.append [9, 8, 7]).release).1.take (mkDefault.append [9, 8, 7]).len_ =
      (mkDefault.append [9, 8, 7]).contents :=
  claim_C7 (mkDefault.append [9, 8, 7]) (by decide)

/-- C8: assign_copy followed by ToString yields exactly the assigned
bytes, for lengths below, at, or above the current capacity. -/
theorem claim_C8 (s : faststring) (src : List Nat) (hwf : s.wf) :
    (s.assign_copy src).ToString = src :=
  ToString_assign_copy s src hwf

/-- C8 witness: assigning 40 bytes (more than the fresh capacity 32) and
converting to a string returns exactly those bytes. -/
theorem claim_C8_witness :
    (mkDefault.assign_copy (List.replicate 40 7)).ToString = List.replicate 40 7 :=
  claim_C8 mkDefault (List.replicate 40 7) (by decide)

end faststring

/-- C9: every state reachable from a constructor through interface
operations satisfies length less than or equal to capacity and capacity at
least kInitialCapacity. -/
theorem claim_C9 (s : faststring) (h : Reachable s) :
    0 ≤ s.len_ ∧ s.len_ ≤ s.capacity_ ∧ kInitialCapacity ≤ s.capacity_ := by
  have hwf := wf_of_Reachable s h
  exact ⟨Nat.zero_le _, hwf.2.2.1, hwf.2.2.2⟩

/-- C9 witness: the state reached by one append on a fresh buffer
satisfies both invariants. -/
theorem claim_C9_witness :
    0 ≤ (applyOp (Op.appendOp [1, 2, 3, 4, 5]) faststring.mkDefault).len_ ∧
    (applyOp (Op.appendOp [1, 2, 3, 4, 5]) faststring.mkDefault).len_ ≤
      (applyOp (Op.appendOp [1, 2, 3, 4, 5]) faststring.mkDefault).capacity_ ∧
    kInitialCapacity ≤ (applyOp (Op.appendOp [1, 2, 3, 4, 5]) faststring.mkDefault).capacity_ :=
  claim_C9 (applyOp (Op.appendOp [1, 2, 3, 4, 5]) faststring.mkDefault)
    (Reachable.step (Op.appendOp [1, 2, 3, 4, 5]) faststring.mkDefault Reachable.base)

end kudu
